import Mathlib

/-!
Verification development for the netviewr core (mutual k-nearest-neighbour
population graphs): a shallow embedding of the Rust functions in
src/dist.rs, src/mknn.rs, src/centrality.rs, src/label.rs and
src/netview.rs, together with theorems settling the specified properties.

Modelling conventions:
* Rust f64 values are modelled as exact rationals (ℚ) for the mkNN,
  centrality and label-propagation subsystems (none of their code paths
  uses irrational operations), and as reals (ℝ) for the
  distance-of-distances abstraction, whose definition applies sqrt.
* A Rust panic (index out of bounds, .unwrap() on None, or a loop that
  cannot make progress within the given fuel) is modelled as Option.none.
* A Rust Result<T, NetviewError> is modelled as Except NetviewError T.
* petgraph's Graph<N, E, Undirected> is modelled as a node count (node
  indices are assigned by insertion order 0, 1, ...) together with the
  edge list in insertion order.
-/

deriving instance DecidableEq for Except

namespace Netviewr

/-- The subset of error.rs NetviewError constructors reachable from the
embedded functions. -/
inductive NetviewError where
  | InvalidMatrix
  | InvalidK
  | EmptyMatrix
  | InvalidDimensions
  | NodeIndexError
  deriving DecidableEq, Repr

/-- Matrices (Vec of Vec of f64) over exact rationals. -/
abbrev QMat := List (List ℚ)

/-- Collecting traversal over Option: models a Rust loop that panics as
soon as one element's computation panics. -/
def optTraverse {α β : Type} (f : α → Option β) : List α → Option (List β)
  | [] => some []
  | a :: l => match f a, optTraverse f l with
    | some b, some bs => some (b :: bs)
    | _, _ => none

/-- Collecting traversal over Except: models a Rust loop that returns the
first error raised by an element's computation. -/
def excTraverse {ε α β : Type} (f : α → Except ε β) : List α → Except ε (List β)
  | [] => .ok []
  | a :: l => match f a with
    | .error e => .error e
    | .ok b => match excTraverse f l with
      | .error e => .error e
      | .ok bs => .ok (b :: bs)

/-- dist.rs make_symmetrical. The source checks emptiness, returns a full
square matrix unchanged, and otherwise mirrors the lower triangle: the
fill loop writes sym[i][j] = sym[j][i] = m[i][j] for every j ≤ i, so the
final entry at (i, j) is m[max i j][min i j]; an out-of-bounds read of
m[i][j] (row i shorter than i+1 entries) is a panic, modelled as none. -/
def make_symmetrical (dm : QMat) : Option (Except NetviewError QMat) :=
  let n := dm.length
  if dm.isEmpty then some (.error .EmptyMatrix)
  else if dm.all (fun row => row.length = n) then some (.ok dm)
  else
    (optTraverse (fun i =>
      optTraverse (fun j =>
        if j ≤ i then dm[i]?.bind (fun row => row[j]?)
        else dm[j]?.bind (fun row => row[i]?)) (List.range n))
      (List.range n)).map .ok

/-- The full-matrix entry lookup matrix[i][j] used by
k_mutual_nearest_neighbors after make_symmetrical; by then every index is
in bounds, so a defaulted lookup is exact. -/
def matEntry (m : QMat) (i j : Nat) : ℚ :=
  (m.getD i []).getD j 0

/-- The neighbour list built by the inner loop of
k_mutual_nearest_neighbors: the pairs (j, matrix[i][j]) for j ≠ i in
ascending j. -/
def neighborPairs (m : QMat) (n i : Nat) : List (Nat × ℚ) :=
  ((List.range n).filter (fun j => j ≠ i)).map (fun j => (j, matEntry m i j))

/-- mknn.rs k_mutual_nearest_neighbors, per-row nearest neighbours: the
neighbour pairs sorted by distance with Rust's stable sort_by (a stable
sort by one comparator has a unique result, here realised by insertion
sort), then the first k indices. -/
def nearestNeighbors (m : QMat) (n k i : Nat) : List Nat :=
  (((neighborPairs m n i).insertionSort (fun a b => a.2 ≤ b.2)).map
    Prod.fst).take k

/-- mknn.rs k_mutual_nearest_neighbors, mutuality filter: row i keeps
neighbour j iff i is in turn in row j's nearest-neighbour list. Every j
in a nearest-neighbour list is < n, so the defaulted lookup of row j is
exact (the source indexes nearest_neighbors[j] directly). -/
def mutualLists (m : QMat) (n k : Nat) : List (List Nat) :=
  let nn := (List.range n).map (nearestNeighbors m n k)
  (List.range n).map (fun i =>
    (nn.getD i []).filter (fun j => (nn.getD j []).contains i))

/-- mknn.rs k_mutual_nearest_neighbors: validation, symmetrisation, and
the mutual nearest-neighbour lists. -/
def k_mutual_nearest_neighbors (dm : QMat) (k : Nat) :
    Option (Except NetviewError (List (List Nat))) :=
  let n := dm.length
  if n = 0 ∨ dm.any (fun row => row.length > n) then
    some (.error .InvalidMatrix)
  else if k = 0 ∨ k ≥ n then
    some (.error .InvalidK)
  else
    (make_symmetrical dm).map (fun r => r.map (fun m => mutualLists m n k))

/-- The graph built by mknn.rs convert_to_graph: a petgraph
Graph<usize, f64, Undirected> whose node indices are 0 .. nodeCount-1 in
insertion order, with the edge list (source, target, weight) in insertion
order. -/
structure MknnGraph where
  nodeCount : Nat
  edges : List (Nat × Nat × ℚ)
  deriving DecidableEq, Repr

/-- mknn.rs convert_to_graph edge weight: the matrix entry at row i,
column j when the matrix argument and the entry are present, defaulting
to 1.0 otherwise (matrix.get(i).and_then(row.get(j)).unwrap_or(1.0)). -/
def edgeWeight (dm : Option QMat) (i j : Nat) : ℚ :=
  match dm with
  | some mat => (mat[i]?.bind (fun row => row[j]?)).getD 1
  | none => 1

/-- mknn.rs convert_to_graph. Nodes 0 .. n-1 are added first, so the
index_map sends node i to NodeIndex i; looking a neighbour up in the
index_map fails with NodeIndexError exactly when the neighbour index is
not a node, i.e. ≥ n (the node's own lookup always succeeds). One edge is
inserted per occurrence of j in node i's neighbour list. -/
def convert_to_graph (mnn : List (List Nat)) (dm : Option QMat) :
    Except NetviewError MknnGraph :=
  let n := mnn.length
  (excTraverse (fun p =>
    excTraverse (fun j =>
      if j < n then .ok (p.1, j, edgeWeight dm p.1 j)
      else .error .NodeIndexError) p.2) mnn.enum).map
    (fun ess => ⟨n, ess.flatten⟩)

/-- netview.rs NodeLabel: the node payload of a NetviewGraph. -/
structure NodeLabel where
  index : Nat
  id : Option String
  label : Option String
  label_confidence : ℚ
  deriving DecidableEq, Repr

/-- netview.rs EdgeLabel: the edge payload of a NetviewGraph. -/
structure EdgeLabel where
  index : Nat
  source : Nat
  target : Nat
  weight : ℚ
  ani : Option ℚ
  aai : Option ℚ
  af : Option ℚ
  deriving DecidableEq, Repr

/-- netview.rs NetviewGraph = petgraph Graph<NodeLabel, EdgeLabel,
Undirected>: node payloads in insertion order (node index = position) and
edge payloads in insertion order. -/
structure NvGraph where
  nodes : List NodeLabel
  edges : List EdgeLabel
  deriving DecidableEq, Repr

/-- petgraph Graph::neighbors on an undirected graph: the opposite
endpoint of every incident edge, walking the node's incident-edge list
from the most recently inserted edge backwards. -/
def neighborsOf (g : NvGraph) (v : Nat) : List Nat :=
  (g.edges.filterMap (fun e =>
    if e.source = v then some e.target
    else if e.target = v then some e.source
    else none)).reverse

/-- centrality.rs standardize_centrality. The source folds (min, max)
starting from (INFINITY, NEG_INFINITY) over all values of a nonempty map,
which is the minimum and maximum of the values; it rescales only when
max > min. Keys are untouched. -/
def standardize_centrality (c : List (Nat × ℚ)) : List (Nat × ℚ) :=
  match c with
  | [] => []
  | p :: ps =>
    let minVal := (ps.map Prod.snd).foldl min p.2
    let maxVal := (ps.map Prod.snd).foldl max p.2
    if minVal < maxVal then
      (p :: ps).map (fun q => (q.1, (q.2 - minVal) / (maxVal - minVal)))
    else p :: ps

/-- centrality.rs degree_centrality: node index ↦ number of neighbours
(kept in node-index order; the source's HashMap iteration order is
unspecified, and standardisation is order-independent). -/
def degree_centrality (g : NvGraph) (standardized : Bool) : List (Nat × ℚ) :=
  let c := (List.range g.nodes.length).map
    (fun v => (v, ((neighborsOf g v).length : ℚ)))
  if standardized then standardize_centrality c else c

/-- The increment *centrality.get_mut(&predecessor.index()).unwrap() += 1.0
in centrality.rs betweenness_centrality. -/
def bcBump (c : List (Nat × ℚ)) (i : Nat) : List (Nat × ℚ) :=
  c.map (fun p => if p.1 = i then (p.1, p.2 + 1) else p)

/-- The inner while-let loop of centrality.rs betweenness_centrality,
with fuel: starting from predecessors = vec![target], it reads the last
element, stops when it equals the source, and otherwise pushes that same
element again and increments its centrality score. The head of the list
models the last element of the Rust Vec. Running out of fuel (none)
models a loop that is still running after fuel steps. -/
def bcLoop (source : Nat) : Nat → List Nat → List (Nat × ℚ) →
    Option (List (Nat × ℚ))
  | 0, _, _ => none
  | _ + 1, [], cent => some cent
  | fuel + 1, p :: rest, cent =>
    if p = source then some cent
    else bcLoop source fuel (p :: p :: rest) (bcBump cent p)

/-- One expansion step of the reachable set of a source node. -/
def reachStep (g : NvGraph) (cur : List Nat) : List Nat :=
  (cur ++ cur.flatMap (neighborsOf g)).dedup

/-- The key set of petgraph dijkstra(&graph, source, None, ...): exactly
the nodes reachable from the source (including it). The distances in
that map are never read by betweenness_centrality, so only the key set
is modelled; |V| expansion steps reach the fixpoint. -/
def reachableFrom (g : NvGraph) (s : Nat) : List Nat :=
  (reachStep g)^[g.nodes.length] [s]

/-- The loop over targets of one dijkstra result in centrality.rs
betweenness_centrality: source = target pairs are skipped, every other
reachable target runs the predecessor loop. -/
def bcTargets (source fuel : Nat) : List Nat → List (Nat × ℚ) →
    Option (List (Nat × ℚ))
  | [], cent => some cent
  | t :: ts, cent =>
    if source ≠ t then
      match bcLoop source fuel [t] cent with
      | none => none
      | some cent' => bcTargets source fuel ts cent'
    else bcTargets source fuel ts cent

/-- The loop over source nodes of centrality.rs betweenness_centrality. -/
def bcSources (g : NvGraph) (fuel : Nat) : List Nat → List (Nat × ℚ) →
    Option (List (Nat × ℚ))
  | [], cent => some cent
  | s :: ss, cent =>
    match bcTargets s fuel (reachableFrom g s) cent with
    | none => none
    | some cent' => bcSources g fuel ss cent'

/-- centrality.rs betweenness_centrality, with fuel bounding the number
of steps of each inner while-let loop: scores start at 0 for every node,
each (source, reachable target) pair runs the predecessor loop, and the
result is optionally standardized. none models non-termination: the
value holds for no amount of fuel. -/
def betweenness_centrality_fuel (fuel : Nat) (g : NvGraph)
    (standardized : Bool) : Option (List (Nat × ℚ)) :=
  let n := g.nodes.length
  (bcSources g fuel (List.range n)
    ((List.range n).map (fun i => (i, (0 : ℚ))))).map
    (fun c => if standardized then standardize_centrality c else c)

/-- label.rs VoteWeights: coefficients of the vote channels. -/
structure VoteWeights where
  centrality : ℚ
  weight : ℚ
  af : ℚ
  ani : ℚ
  aai : ℚ
  deriving DecidableEq, Repr

/-- Node payload at node index v (v is always a valid index at every use
site; the source unwraps the Option). -/
def nodeAt (g : NvGraph) (v : Nat) : NodeLabel :=
  g.nodes.getD v ⟨0, none, none, 0⟩

/-- label.rs label_propagation target-set selection: unlabeled nodes if
propagate_on_unlabeled, else the nodes whose id is listed in query_nodes
(ids matching no node are simply never produced by the filter), else all
nodes. -/
def targetNodes (g : NvGraph) (query_nodes : Option (List String))
    (propagate_on_unlabeled : Bool) : List Nat :=
  if propagate_on_unlabeled then
    (List.range g.nodes.length).filter (fun v => (nodeAt g v).label = none)
  else
    match query_nodes with
    | some ids =>
      (List.range g.nodes.length).filter (fun v =>
        match (nodeAt g v).id with
        | some id => ids.contains id
        | none => false)
    | none => List.range g.nodes.length

/-- petgraph Graph::find_edge on an undirected graph: an edge connecting
v and u in either orientation (unique in every graph we reason about, so
the scan order is immaterial). -/
def findEdge (g : NvGraph) (v u : Nat) : Option EdgeLabel :=
  g.edges.find? (fun e =>
    (e.source = v ∧ e.target = u) ∨ (e.source = u ∧ e.target = v))

/-- centrality[&i]: the key is always present at every use site. -/
def lookupQ (c : List (Nat × ℚ)) (i : Nat) : ℚ :=
  ((c.find? (fun p => p.1 = i)).map Prod.snd).getD 0

/-- *label_votes.entry(label).or_insert(0.0) += vote_weight, with keys in
first-insertion order (the source's HashMap iteration order is
unspecified; only ties between distinct labels depend on it). -/
def tallyAdd (t : List (String × ℚ)) (lbl : String) (w : ℚ) :
    List (String × ℚ) :=
  if t.any (fun p => p.1 = lbl) then
    t.map (fun p => if p.1 = lbl then (p.1, p.2 + w) else p)
  else t ++ [(lbl, w)]

/-- The vote of one labelled neighbour u over edge e in label.rs
label_propagation: similarity from the edge weight (percent-rescaled if
distance_percent), ani/aai/af unconditionally divided by 100 (0 when
absent), the target node's centrality, and optionally the neighbour's
centrality. -/
def voteOf (vw : VoteWeights) (ncv dp : Bool) (cent : List (Nat × ℚ))
    (nodeCent : ℚ) (e : EdgeLabel) (u : Nat) : ℚ :=
  let ani := e.ani.getD 0 / 100
  let aai := e.aai.getD 0 / 100
  let af := e.af.getD 0 / 100
  let weight := if dp then 1 - e.weight / 100 else 1 - e.weight
  let base := weight * vw.weight + vw.ani * ani + vw.aai * aai +
    vw.af * af + vw.centrality * nodeCent
  if ncv then base + lookupQ cent u else base

/-- The vote tally of target node v: every neighbour whose label is set
contributes its vote to that label's tally (find_edge cannot fail, since
the neighbour came from an incident edge). -/
def votesFor (g : NvGraph) (cent : List (Nat × ℚ)) (vw : VoteWeights)
    (ncv dp : Bool) (v : Nat) : List (String × ℚ) :=
  (neighborsOf g v).foldl (fun tally u =>
    match (nodeAt g u).label with
    | some lbl =>
      match findEdge g v u with
      | some e => tallyAdd tally lbl (voteOf vw ncv dp cent (lookupQ cent v) e u)
      | none => tally
    | none => tally) []

/-- Iterator::max_by on the tally: none iff the tally is empty, else the
last maximal element in iteration order (the source iterates a HashMap,
so a tie between distinct labels is resolved nondeterministically there;
the model fixes first-insertion order). -/
def pickMax (t : List (String × ℚ)) : Option (String × ℚ) :=
  t.foldl (fun acc p =>
    match acc with
    | none => some p
    | some q => if q.2 ≤ p.2 then some p else some q) none

/-- One iteration's proposal set new_labels: for each target node with a
nonempty tally, the winning label (keyed by distinct nodes, so the
application order is immaterial; list order is target order). -/
def proposals (g : NvGraph) (cent : List (Nat × ℚ)) (vw : VoteWeights)
    (ncv dp : Bool) (targets : List Nat) : List (Nat × String) :=
  targets.foldl (fun acc v =>
    match pickMax (votesFor g cent vw ncv dp v) with
    | some p => acc ++ [(v, p.1)]
    | none => acc) []

/-- node_weight_mut(node).label = Some(new_label): update the payload at
node index v (always a valid index for proposals). -/
def setLabel (g : NvGraph) (v : Nat) (lbl : String) : NvGraph :=
  { g with nodes := g.nodes.set v { nodeAt g v with label := some lbl } }

/-- Applying an iteration's proposals to the graph. -/
def applyProps (g : NvGraph) (ps : List (Nat × String)) : NvGraph :=
  ps.foldl (fun g' p => setLabel g' p.1 p.2) g

/-- The iteration loop of label.rs label_propagation, instrumented with
the number of iterations executed. label_changed is set once per applied
proposal — regardless of whether the proposed label differs from the
node's current label — so the loop breaks exactly when the proposal set
of an iteration is empty. -/
def lpLoop (cent : List (Nat × ℚ)) (vw : VoteWeights) (ncv dp : Bool)
    (targets : List Nat) : Nat → NvGraph → NvGraph × Nat
  | 0, g => (g, 0)
  | m + 1, g =>
    let props := proposals g cent vw ncv dp targets
    let g' := applyProps g props
    if props.isEmpty then (g', 1)
    else
      let r := lpLoop cent vw ncv dp targets m g'
      (r.1, r.2 + 1)

/-- label.rs label_propagation. The source computes the centrality map
from centrality_metric up front (Degree ↦ degree_centrality g true,
likewise Closeness/Betweenness) and then never recomputes it; the model
takes that computed map as the cent argument (the Betweenness variant
diverges, see betweenness_centrality_fuel). The second component is the
number of iterations executed (the source returns only the graph); the
first component is the returned graph. -/
def label_propagation (g : NvGraph) (cent : List (Nat × ℚ))
    (max_iterations : Nat) (vw : VoteWeights) (ncv dp : Bool)
    (query_nodes : Option (List String)) (propagate_on_unlabeled : Bool) :
    NvGraph × Nat :=
  lpLoop cent vw ncv dp (targetNodes g query_nodes propagate_on_unlabeled)
    max_iterations g

/-- The matrix entry lookup of dist.rs euclidean_distance_of_distances:
matrix[k][x] when treating a lower-triangular input above its diagonal,
matrix[x][k] otherwise; an out-of-bounds read is a panic (none). -/
def lowerLookup (dm : List (List ℝ)) (isLower : Bool) (x k : Nat) :
    Option ℝ :=
  if isLower ∧ x < k then dm[k]?.bind (fun row => row[x]?)
  else dm[x]?.bind (fun row => row[k]?)

/-- The compute_distance closure of dist.rs
euclidean_distance_of_distances: the square root of the sum over
k < n of (val_i − val_j)², propagating index-out-of-bounds panics. -/
noncomputable def compute_distance (dm : List (List ℝ)) (isLower : Bool)
    (n i j : Nat) : Option ℝ :=
  (optTraverse (fun k =>
    match lowerLookup dm isLower i k, lowerLookup dm isLower j k with
    | some a, some b => some ((a - b) ^ 2)
    | _, _ => none) (List.range n)).map (fun l => Real.sqrt l.sum)

/-- The strict-upper-triangle pair list (i, j) with i < j < n, in the
order of the source's nested loops (i ascending, then j from i+1). -/
def upperPairs (n : Nat) : List (Nat × Nat) :=
  (List.range n).flatMap (fun i =>
    ((List.range n).filter (fun j => i < j)).map (fun j => (i, j)))

/-- result_matrix[i][j] = d. -/
def setMat (m : List (List ℝ)) (i j : Nat) (v : ℝ) : List (List ℝ) :=
  m.set i ((m.getD i []).set j v)

/-- Filling the n×n zero matrix with the computed distances, mirrored to
both halves, in computation order. -/
def fillResult (n : Nat) (ds : List (Nat × Nat × ℝ)) : List (List ℝ) :=
  ds.foldl (fun acc t => setMat (setMat acc t.1 t.2.1 t.2.2) t.2.1 t.1 t.2.2)
    (List.replicate n (List.replicate n (0 : ℝ)))

/-- dist.rs euclidean_distance_of_distances. All three scheduling
branches (sequential, worker pool, chunked worker pool) compute the same
(i, j, distance) triples in the same order — rayon's indexed collect
preserves order — so the thread-count and chunk-size parameters do not
affect the value and the sequential branch is modelled. The function
performs no dimension validation: a row shorter than n makes
compute_distance read out of bounds, a panic (none). -/
noncomputable def euclidean_distance_of_distances (dm : List (List ℝ))
    (isLower : Bool) (numThreads chunkSize : Option Nat) :
    Option (List (List ℝ)) :=
  (optTraverse (fun p =>
    (compute_distance dm isLower dm.length p.1 p.2).map (fun d => (p.1, p.2, d)))
    (upperPairs dm.length)).map (fillResult dm.length)

/-- The edge list produced by a successful convert_to_graph run: one edge
(i, j, weight) per occurrence of j in node i's neighbour list, in
insertion order. -/
def mknnEdges (mnn : List (List Nat)) (dm : Option QMat) :
    List (Nat × Nat × ℚ) :=
  mnn.enum.flatMap (fun p => p.2.map (fun j => (p.1, j, edgeWeight dm p.1 j)))

theorem optTraverse_eq_some {α β : Type} (f : α → Option β) (g : α → β) :
    ∀ (l : List α), (∀ a ∈ l, f a = some (g a)) →
      optTraverse f l = some (l.map g)
  | [], _ => rfl
  | a :: l, h => by
    have ha := h a (List.mem_cons_self a l)
    have hl := optTraverse_eq_some f g l (fun b hb => h b (List.mem_cons_of_mem a hb))
    simp [optTraverse, ha, hl]

theorem excTraverse_eq_ok {ε α β : Type} (f : α → Except ε β) (g : α → β) :
    ∀ (l : List α), (∀ a ∈ l, f a = .ok (g a)) →
      excTraverse f l = .ok (l.map g)
  | [], _ => rfl
  | a :: l, h => by
    have ha := h a (List.mem_cons_self a l)
    have hl := excTraverse_eq_ok f g l (fun b hb => h b (List.mem_cons_of_mem a hb))
    simp [excTraverse, ha, hl]

/-- Scenario 6 of the spec: the 4-node ring 0-1-2-3-0 with labels
["A", none, "B", none] and uniform edge weights. -/
def ring4 : NvGraph :=
  ⟨[⟨0, none, some "A", 0⟩, ⟨1, none, none, 0⟩,
    ⟨2, none, some "B", 0⟩, ⟨3, none, none, 0⟩],
   [⟨0, 0, 1, 1/2, none, none, none⟩, ⟨1, 1, 2, 1/2, none, none, none⟩,
    ⟨2, 2, 3, 1/2, none, none, none⟩, ⟨3, 3, 0, 1/2, none, none, none⟩]⟩

/-- Scenario 6 vote weights: weight 1, every other channel 0. -/
def vw6 : VoteWeights := ⟨0, 1, 0, 0, 0⟩

/-! ## Claim C7 -/

/-- Claim C7: euclidean_distance_of_distances maps the empty matrix to an
empty matrix successfully; but on a non-square matrix with
is_lower_triangular = false it does not return an InvalidDimensions error
— it reads row 1 out of bounds and panics (none). The function performs
no dimension validation and its only exit is Ok, contradicting its own
doc comment, which promises a NonSquareMatrix error on non-square
input. -/
theorem claim_C7_empty_ok_nonsquare_panics :
    euclidean_distance_of_distances [] false none none = some ([] : List (List ℝ)) ∧
    euclidean_distance_of_distances [[0, 1], [1]] false none none = none := by
  constructor
  · simp [euclidean_distance_of_distances, upperPairs, optTraverse, fillResult]
  · have h2 : upperPairs 2 = [(0, 1)] := by decide
    simp [euclidean_distance_of_distances, h2, optTraverse, compute_distance,
      lowerLookup, List.range_succ]

/-! ## Claim C8 -/

/-- Claim C8 counterexample: the empty matrix is rejected by
k_mutual_nearest_neighbors with InvalidMatrix, not InvalidK, refuting
"for an N=0 (empty) matrix ... every call is rejected with InvalidK". -/
theorem claim_C8_counterexample :
    k_mutual_nearest_neighbors ([] : QMat) 1 = some (.error .InvalidMatrix) ∧
    ¬ k_mutual_nearest_neighbors ([] : QMat) 1 = some (.error .InvalidK) := by
  decide

theorem make_symmetrical_cases (dm : QMat) :
    make_symmetrical dm = none ∨ (∃ m, make_symmetrical dm = some (.ok m)) ∨
      make_symmetrical dm = some (.error .EmptyMatrix) := by
  by_cases h1 : dm.isEmpty
  · exact Or.inr (Or.inr (by simp [make_symmetrical, h1]))
  · by_cases h2 : dm.all (fun row => row.length = dm.length)
    · exact Or.inr (Or.inl ⟨dm, by simp [make_symmetrical, h1, h2]⟩)
    · cases hx : optTraverse (fun i =>
        optTraverse (fun j =>
          if j ≤ i then dm[i]?.bind (fun row => row[j]?)
          else dm[j]?.bind (fun row => row[i]?)) (List.range dm.length))
          (List.range dm.length) with
      | none => exact Or.inl (by simp [make_symmetrical, h1, h2, hx])
      | some m => exact Or.inr (Or.inl ⟨m, by simp [make_symmetrical, h1, h2, hx]⟩)

/-- Claim C8 amended: for a nonempty input whose rows are no longer than
N, k_mutual_nearest_neighbors fails with InvalidK exactly when k = 0 or
k ≥ N (so every call on an N=1 matrix is InvalidK); the empty matrix is
instead rejected with InvalidMatrix. -/
theorem claim_C8_invalidK_iff (dm : QMat) (k : Nat) (hne : dm ≠ [])
    (hrows : ∀ row ∈ dm, row.length ≤ dm.length) :
    k_mutual_nearest_neighbors dm k = some (.error .InvalidK) ↔
      k = 0 ∨ dm.length ≤ k := by
  have hn : ¬ (dm.length = 0 ∨ dm.any (fun row => row.length > dm.length) = true) := by
    rintro (h0 | hany)
    · exact hne (List.length_eq_zero.mp h0)
    · rw [List.any_eq_true] at hany
      obtain ⟨row, hrow, hgt⟩ := hany
      exact absurd (hrows row hrow) (by simpa using hgt)
  by_cases hk : k = 0 ∨ k ≥ dm.length
  · constructor
    · intro _; exact hk
    · intro _
      simp only [k_mutual_nearest_neighbors]
      rw [if_neg hn, if_pos hk]
  · have hval : k_mutual_nearest_neighbors dm k ≠ some (.error .InvalidK) := by
      simp only [k_mutual_nearest_neighbors]
      rw [if_neg hn, if_neg hk]
      rcases make_symmetrical_cases dm with h | ⟨m, h⟩ | h <;> simp [h, Except.map]
    exact ⟨fun hc => absurd hc hval, fun hc => absurd hc hk⟩

/-- Claim C8 witness: the amended theorem applied at the 2×2 matrix with
k = 0. -/
theorem claim_C8_witness :
    k_mutual_nearest_neighbors [[0, 1], [1, 0]] 0 =
      some (.error .InvalidK) :=
  (claim_C8_invalidK_iff [[0, 1], [1, 0]] 0 (by decide) (by decide)).mpr
    (Or.inl rfl)

/-! ## Claim C10 -/

/-- Claim C10: convert_to_graph never fails because of a missing
distance: whenever every listed neighbour is a valid node index, it
succeeds and inserts one edge per (i, j) occurrence, with the weight
defaulting to 1.0 when the distance-matrix argument is None or has no
entry at row i, column j. -/
theorem convert_to_graph_ok (mnn : List (List Nat)) (dm : Option QMat)
    (h : ∀ nbrs ∈ mnn, ∀ j ∈ nbrs, j < mnn.length) :
    convert_to_graph mnn dm = .ok ⟨mnn.length, mknnEdges mnn dm⟩ := by
  have houter : ∀ p ∈ mnn.enum,
      excTraverse (fun j =>
        if j < mnn.length then Except.ok (p.1, j, edgeWeight dm p.1 j)
        else Except.error NetviewError.NodeIndexError) p.2 =
      Except.ok (p.2.map (fun j => (p.1, j, edgeWeight dm p.1 j))) := by
    intro p hp
    refine excTraverse_eq_ok _ _ _ (fun j hj => ?_)
    have hp2 : p.2 ∈ mnn := by
      have hg := List.mem_enum_iff_getElem?.mp hp
      obtain ⟨hlt, heq⟩ := List.getElem?_eq_some.mp hg
      rw [← heq]
      exact List.getElem_mem hlt
    simp [h p.2 hp2 j hj]
  simp only [convert_to_graph, excTraverse_eq_ok _ _ _ houter, Except.map]
  simp [mknnEdges, List.flatMap_def]

theorem claim_C10_default_weight (mnn : List (List Nat)) (dm : Option QMat)
    (h : ∀ nbrs ∈ mnn, ∀ j ∈ nbrs, j < mnn.length) :
    convert_to_graph mnn dm = .ok ⟨mnn.length, mknnEdges mnn dm⟩ ∧
    (dm = none → ∀ i j, edgeWeight dm i j = 1) ∧
    (∀ mat, dm = some mat → ∀ i j,
      mat[i]?.bind (fun row => row[j]?) = none → edgeWeight dm i j = 1) := by
  refine ⟨convert_to_graph_ok mnn dm h, ?_, ?_⟩
  · intro hdm i j
    simp [hdm, edgeWeight]
  · intro mat hdm i j hnone
    simp [hdm, edgeWeight, hnone]

/-- Claim C10 witness: the theorem applied at the mutual lists [[1],[0]]
with a distance matrix lacking the entry at row 0, column 1. -/
theorem claim_C10_witness :
    convert_to_graph [[1], [0]] (some ([[0], [0]] : QMat)) =
      .ok ⟨List.length [[1], [0]], mknnEdges [[1], [0]] (some [[0], [0]])⟩ :=
  (claim_C10_default_weight [[1], [0]] (some [[0], [0]]) (by decide)).1

/-! ## Claim C4 -/

/-- A single-node graph with id "s1" and a label. -/
def gSolo : NvGraph := ⟨[⟨0, some "s1", some "X", 0⟩], []⟩

/-- Claim C4 counterexample: calling label_propagation with a target
selection by identifiers containing an id matching no node returns
normally with the graph unchanged after one iteration — the unknown id is
silently dropped by the target filter. The function's return type has no
error channel at all, so it cannot fail with NodeNotFound. -/
theorem claim_C4_counterexample :
    targetNodes gSolo (some ["unknown"]) false = [] ∧
    label_propagation gSolo (degree_centrality gSolo true) 5 ⟨1, 2, 1, 0, 0⟩
      false false (some ["unknown"]) false = (gSolo, 1) := by
  decide

/-- Claim C4 amended: a target selection by identifiers keeps exactly the
nodes whose id occurs in query_nodes; ids matching no node are silently
ignored, and when no node matches, the graph is returned unchanged — no
NodeNotFound error exists on this code path. -/
theorem claim_C4_unknown_ids_ignored (g : NvGraph) (cent : List (Nat × ℚ))
    (m : Nat) (vw : VoteWeights) (ncv dp : Bool) (ids : List String)
    (h : ∀ v, v < g.nodes.length → ∀ s, (nodeAt g v).id = some s →
      ¬ ids.contains s) :
    targetNodes g (some ids) false = [] ∧
    (label_propagation g cent m vw ncv dp (some ids) false).1 = g := by
  have htarget : targetNodes g (some ids) false = [] := by
    simp only [targetNodes, if_false, Bool.false_eq_true]
    rw [List.filter_eq_nil_iff]
    intro v hv
    rw [List.mem_range] at hv
    cases hid : (nodeAt g v).id with
    | none => simp [hid]
    | some s => simpa [hid] using h v hv s hid
  refine ⟨htarget, ?_⟩
  rw [label_propagation, htarget]
  cases m with
  | zero => rfl
  | succ m => simp [lpLoop, proposals, applyProps]

/-- Claim C4 witness: the amended theorem applied to the single-node
graph and a query id matching no node. -/
theorem claim_C4_witness :
    targetNodes gSolo (some ["zzz"]) false = [] ∧
    (label_propagation gSolo [] 3 ⟨1, 2, 1, 0, 0⟩ false false
      (some ["zzz"]) false).1 = gSolo :=
  claim_C4_unknown_ids_ignored gSolo [] 3 ⟨1, 2, 1, 0, 0⟩ false false
    ["zzz"] (by decide)

/-! ## Claim C1 -/

theorem bcLoop_stuck (src : Nat) :
    ∀ (fuel t : Nat) (rest : List Nat) (cent : List (Nat × ℚ)), t ≠ src →
      bcLoop src fuel (t :: rest) cent = none
  | 0, _, _, _, _ => rfl
  | fuel + 1, t, rest, cent, h => by
    simp only [bcLoop, if_neg h]
    exact bcLoop_stuck src fuel t (t :: rest) (bcBump cent t) h

theorem bcTargets_head_stuck (src fuel t : Nat) (ts : List Nat)
    (cent : List (Nat × ℚ)) (h : t ≠ src) :
    bcTargets src fuel (t :: ts) cent = none := by
  simp [bcTargets, Ne.symm h, bcLoop_stuck src fuel t [] cent h]

/-- The two-node graph with a single edge. -/
def gC1 : NvGraph :=
  ⟨[⟨0, none, none, 0⟩, ⟨1, none, none, 0⟩],
   [⟨0, 0, 1, 1, none, none, none⟩]⟩

/-- Claim C1: betweenness_centrality does not terminate on every finite
undirected graph. On the two-node single-edge graph, the predecessor
while-loop reads the last stack element (the target), pushes that same
element again and repeats, so it never finishes for any step bound: the
source loop runs forever, and no centrality map of size |V| is returned.
(On a graph with at least one edge, some reachable target differs from
the source, triggering the loop.) -/
theorem claim_C1_betweenness_diverges (fuel : Nat) (standardized : Bool) :
    betweenness_centrality_fuel fuel gC1 standardized = none := by
  have hrange : List.range gC1.nodes.length = [0, 1] := by decide
  have hreach : reachableFrom gC1 0 = [1, 0] := by decide
  simp only [betweenness_centrality_fuel, hrange, bcSources, hreach,
    bcTargets_head_stuck 0 fuel 1 [0] _ (by decide)]
  rfl

/-! ## Claim C2 -/

/-- The ring graph after one propagation iteration: node 1 adopted "A",
node 3 adopted "B". This state is a fixpoint of the iteration, yet every
further iteration still produces (identical) proposals. -/
def ring4After : NvGraph :=
  ⟨[⟨0, none, some "A", 0⟩, ⟨1, none, some "A", 0⟩,
    ⟨2, none, some "B", 0⟩, ⟨3, none, some "B", 0⟩],
   [⟨0, 0, 1, 1/2, none, none, none⟩, ⟨1, 1, 2, 1/2, none, none, none⟩,
    ⟨2, 2, 3, 1/2, none, none, none⟩, ⟨3, 3, 0, 1/2, none, none, none⟩]⟩

theorem ring4_proposals :
    proposals ring4 (degree_centrality ring4 true) vw6 false false [1, 3] =
      [(1, "A"), (3, "B")] := by
  norm_num +decide [proposals, votesFor, pickMax, tallyAdd, voteOf,
    neighborsOf, findEdge, nodeAt, lookupQ, degree_centrality,
    standardize_centrality, ring4, vw6, List.filterMap_cons, List.find?]

theorem ring4After_proposals :
    proposals ring4After (degree_centrality ring4 true) vw6 false false [1, 3] =
      [(1, "A"), (3, "B")] := by
  norm_num +decide [proposals, votesFor, pickMax, tallyAdd, voteOf,
    neighborsOf, findEdge, nodeAt, lookupQ, degree_centrality,
    standardize_centrality, ring4, ring4After, vw6, List.filterMap_cons,
    List.find?]

theorem ring4After_fixpoint (m : Nat) :
    lpLoop (degree_centrality ring4 true) vw6 false false [1, 3] m ring4After =
      (ring4After, m) := by
  induction m with
  | zero => rfl
  | succ m ih =>
    have happ : applyProps ring4After [(1, "A"), (3, "B")] = ring4After := by
      norm_num [applyProps, setLabel, nodeAt, ring4After]
    simp [lpLoop, ring4After_proposals, happ, ih]

/-- Claim C2: the iteration loop of label_propagation does not terminate
early when an iteration changes no label. In scenario 6 (the 4-node ring
with labels ["A", none, "B", none], target = unlabeled, weight 1 and
centrality 0), iteration 2 and every later iteration re-propose the
labels the nodes already carry, yet label_changed is set whenever a
proposal is applied — regardless of whether the label value changed — so
the loop always runs the full max_iterations instead of stopping at
iteration 2 as the spec states. -/
theorem claim_C2_no_early_termination (m : Nat) :
    (label_propagation ring4 (degree_centrality ring4 true) m vw6
      false false none true).2 = m := by
  have htargets : targetNodes ring4 none true = [1, 3] := by decide
  rw [label_propagation, htargets]
  cases m with
  | zero => rfl
  | succ m =>
    have happ : applyProps ring4 [(1, "A"), (3, "B")] = ring4After := by
      norm_num [applyProps, setLabel, nodeAt, ring4, ring4After]
    simp [lpLoop, ring4_proposals, happ, ring4After_fixpoint m]

/-! ## Claim C9 -/

theorem foldl_min_le_start (l : List ℚ) : ∀ (a : ℚ), l.foldl min a ≤ a := by
  induction l with
  | nil => intro a; exact le_refl a
  | cons b l ih =>
    intro a
    calc (b :: l).foldl min a = l.foldl min (min a b) := rfl
    _ ≤ min a b := ih (min a b)
    _ ≤ a := min_le_left a b

theorem foldl_min_le_mem (l : List ℚ) : ∀ (a x : ℚ), x ∈ l → l.foldl min a ≤ x := by
  induction l with
  | nil => intro a x hx; cases hx
  | cons b l ih =>
    intro a x hx
    rcases List.mem_cons.mp hx with rfl | hx
    · calc (x :: l).foldl min a = l.foldl min (min a x) := rfl
      _ ≤ min a x := foldl_min_le_start l (min a x)
      _ ≤ x := min_le_right a x
    · exact ih (min a b) x hx

theorem start_le_foldl_max (l : List ℚ) : ∀ (a : ℚ), a ≤ l.foldl max a := by
  induction l with
  | nil => intro a; exact le_refl a
  | cons b l ih =>
    intro a
    calc a ≤ max a b := le_max_left a b
    _ ≤ l.foldl max (max a b) := ih (max a b)
    _ = (b :: l).foldl max a := rfl

theorem mem_le_foldl_max (l : List ℚ) : ∀ (a x : ℚ), x ∈ l → x ≤ l.foldl max a := by
  induction l with
  | nil => intro a x hx; cases hx
  | cons b l ih =>
    intro a x hx
    rcases List.mem_cons.mp hx with rfl | hx
    · calc x ≤ max a x := le_max_right a x
      _ ≤ l.foldl max (max a x) := start_le_foldl_max l (max a x)
      _ = (x :: l).foldl max a := rfl
    · exact ih (max a b) x hx

theorem foldl_min_map (f : ℚ → ℚ) (hf : ∀ x y, f (min x y) = min (f x) (f y))
    (l : List ℚ) : ∀ (a : ℚ), (l.map f).foldl min (f a) = f (l.foldl min a) := by
  induction l with
  | nil => intro a; rfl
  | cons b l ih =>
    intro a
    calc ((b :: l).map f).foldl min (f a)
        = (l.map f).foldl min (min (f a) (f b)) := rfl
    _ = (l.map f).foldl min (f (min a b)) := by rw [hf]
    _ = f (l.foldl min (min a b)) := ih (min a b)

theorem foldl_max_map (f : ℚ → ℚ) (hf : ∀ x y, f (max x y) = max (f x) (f y))
    (l : List ℚ) : ∀ (a : ℚ), (l.map f).foldl max (f a) = f (l.foldl max a) := by
  induction l with
  | nil => intro a; rfl
  | cons b l ih =>
    intro a
    calc ((b :: l).map f).foldl max (f a)
        = (l.map f).foldl max (max (f a) (f b)) := rfl
    _ = (l.map f).foldl max (f (max a b)) := by rw [hf]
    _ = f (l.foldl max (max a b)) := ih (max a b)

/-- The affine rescale x ↦ (x − mn)/(mx − mn) is monotone when mn < mx. -/
theorem rescale_le (mn mx x y : ℚ) (h : mn < mx) (hxy : x ≤ y) :
    (x - mn) / (mx - mn) ≤ (y - mn) / (mx - mn) :=
  (div_le_div_iff_of_pos_right (sub_pos.mpr h)).mpr (sub_le_sub_right hxy mn)

theorem rescale_min (mn mx x y : ℚ) (h : mn < mx) :
    (min x y - mn) / (mx - mn) =
      min ((x - mn) / (mx - mn)) ((y - mn) / (mx - mn)) := by
  rcases le_total x y with hxy | hxy
  · rw [min_eq_left hxy, min_eq_left (rescale_le mn mx x y h hxy)]
  · rw [min_eq_right hxy, min_eq_right (rescale_le mn mx y x h hxy)]

theorem rescale_max (mn mx x y : ℚ) (h : mn < mx) :
    (max x y - mn) / (mx - mn) =
      max ((x - mn) / (mx - mn)) ((y - mn) / (mx - mn)) := by
  rcases le_total x y with hxy | hxy
  · rw [max_eq_right hxy, max_eq_right (rescale_le mn mx x y h hxy)]
  · rw [max_eq_left hxy, max_eq_left (rescale_le mn mx y x h hxy)]

theorem standardize_cons_pos (p : Nat × ℚ) (ps : List (Nat × ℚ))
    (h : (ps.map Prod.snd).foldl min p.2 < (ps.map Prod.snd).foldl max p.2) :
    standardize_centrality (p :: ps) =
      (p :: ps).map (fun q => (q.1,
        (q.2 - (ps.map Prod.snd).foldl min p.2) /
          ((ps.map Prod.snd).foldl max p.2 - (ps.map Prod.snd).foldl min p.2))) := by
  simp only [standardize_centrality]
  rw [if_pos h]

theorem standardize_cons_neg (p : Nat × ℚ) (ps : List (Nat × ℚ))
    (h : ¬ (ps.map Prod.snd).foldl min p.2 < (ps.map Prod.snd).foldl max p.2) :
    standardize_centrality (p :: ps) = p :: ps := by
  simp only [standardize_centrality]
  rw [if_neg h]

/-- Claim C9: min-max normalization of a centrality map is idempotent;
when the maximum of the values exceeds the minimum, every value after one
application lies in [0, 1]; when maximum equals minimum (or the map is
empty) the map is left unchanged. -/
theorem claim_C9_standardize_idempotent (c : List (Nat × ℚ)) :
    standardize_centrality (standardize_centrality c) =
      standardize_centrality c ∧
    ∀ p ps, c = p :: ps →
      (((ps.map Prod.snd).foldl min p.2 < (ps.map Prod.snd).foldl max p.2 →
        ∀ q ∈ standardize_centrality c, 0 ≤ q.2 ∧ q.2 ≤ 1) ∧
       (¬ (ps.map Prod.snd).foldl min p.2 < (ps.map Prod.snd).foldl max p.2 →
        standardize_centrality c = c)) := by
  rcases c with _ | ⟨p, ps⟩
  · exact ⟨rfl, fun p ps h => by cases h⟩
  by_cases h : (ps.map Prod.snd).foldl min p.2 < (ps.map Prod.snd).foldl max p.2
  case neg =>
    have hstd := standardize_cons_neg p ps h
    refine ⟨by rw [hstd, hstd], ?_⟩
    rintro p' ps' heq
    obtain ⟨rfl, rfl⟩ := (List.cons.injEq p ps p' ps').mp heq
    exact ⟨fun hlt => absurd hlt h, fun _ => hstd⟩
  case pos =>
    have hc : (0 : ℚ) < (ps.map Prod.snd).foldl max p.2 -
        (ps.map Prod.snd).foldl min p.2 := sub_pos.mpr h
    set mn := (ps.map Prod.snd).foldl min p.2 with hmn
    set mx := (ps.map Prod.snd).foldl max p.2 with hmx
    have hstd := standardize_cons_pos p ps h
    have hbounds : ∀ q ∈ standardize_centrality (p :: ps),
        0 ≤ q.2 ∧ q.2 ≤ 1 := by
      intro q hq
      rw [hstd] at hq
      obtain ⟨r, hr, rfl⟩ := List.mem_map.mp hq
      have hrlo : mn ≤ r.2 := by
        rcases List.mem_cons.mp hr with rfl | hrm
        · exact foldl_min_le_start _ _
        · exact foldl_min_le_mem _ _ _ (List.mem_map_of_mem Prod.snd hrm)
      have hrhi : r.2 ≤ mx := by
        rcases List.mem_cons.mp hr with rfl | hrm
        · exact start_le_foldl_max _ _
        · exact mem_le_foldl_max _ _ _ (List.mem_map_of_mem Prod.snd hrm)
      constructor
      · exact div_nonneg (sub_nonneg.mpr hrlo) hc.le
      · exact (div_le_one hc).mpr (sub_le_sub_right hrhi mn)
    refine ⟨?_, ?_⟩
    · rw [hstd]
      have hsnd : (ps.map (fun q : Nat × ℚ => (q.1, (q.2 - mn) / (mx - mn)))).map
          Prod.snd = (ps.map Prod.snd).map (fun x => (x - mn) / (mx - mn)) := by
        simp [List.map_map, Function.comp]
      have hmin2 : ((ps.map (fun q : Nat × ℚ => (q.1, (q.2 - mn) / (mx - mn)))).map
          Prod.snd).foldl min ((p.2 - mn) / (mx - mn)) = 0 := by
        rw [hsnd]
        rw [foldl_min_map (fun x => (x - mn) / (mx - mn))
          (fun x y => rescale_min mn mx x y h) (ps.map Prod.snd) p.2]
        rw [← hmn, sub_self, zero_div]
      have hmax2 : ((ps.map (fun q : Nat × ℚ => (q.1, (q.2 - mn) / (mx - mn)))).map
          Prod.snd).foldl max ((p.2 - mn) / (mx - mn)) = 1 := by
        rw [hsnd]
        rw [foldl_max_map (fun x => (x - mn) / (mx - mn))
          (fun x y => rescale_max mn mx x y h) (ps.map Prod.snd) p.2]
        rw [← hmx, div_self hc.ne']
      rw [List.map_cons]
      rw [standardize_cons_pos _ _ (by rw [hmin2, hmax2]; norm_num)]
      rw [hmin2, hmax2]
      have hid : (fun q : Nat × ℚ => (q.1, (q.2 - 0) / (1 - 0))) =
          (id : Nat × ℚ → Nat × ℚ) := by
        funext q
        simp
      rw [hid, List.map_id]
    · rintro p' ps' heq
      obtain ⟨rfl, rfl⟩ := (List.cons.injEq p ps p' ps').mp heq
      exact ⟨fun _ => hbounds, fun hlt => absurd h hlt⟩

/-! ## Claim C3 -/

theorem getD_map_range {α : Type} (f : Nat → α) (n i : Nat) (hi : i < n)
    (d : α) : ((List.range n).map f).getD i d = f i := by
  rw [List.getD_eq_getElem?_getD, List.getElem?_map, List.getElem?_range hi]
  rfl

theorem mem_neighborPairs (m : QMat) (n i : Nat) (x : Nat × ℚ) :
    x ∈ neighborPairs m n i ↔
      x.1 < n ∧ x.1 ≠ i ∧ x = (x.1, matEntry m i x.1) := by
  constructor
  · intro hx
    obtain ⟨j, hj, rfl⟩ := List.mem_map.mp hx
    obtain ⟨hjr, hji⟩ := List.mem_filter.mp hj
    exact ⟨List.mem_range.mp hjr, by simpa using hji, rfl⟩
  · rintro ⟨h1, h2, h3⟩
    rw [h3]
    exact List.mem_map.mpr ⟨x.1,
      List.mem_filter.mpr ⟨List.mem_range.mpr h1, by simpa using h2⟩, rfl⟩

theorem nearestNeighbors_mem_sub (m : QMat) (n k i : Nat) :
    ∀ j ∈ nearestNeighbors m n k i, j < n ∧ j ≠ i := by
  intro j hj
  have hj' := List.mem_of_mem_take hj
  obtain ⟨x, hx, rfl⟩ := List.mem_map.mp hj'
  have hx' : x ∈ neighborPairs m n i := (List.mem_insertionSort _).mp hx
  obtain ⟨h1, h2, _⟩ := (mem_neighborPairs m n i x).mp hx'
  exact ⟨h1, h2⟩

theorem nearestNeighbors_length_le (m : QMat) (n k i : Nat) :
    (nearestNeighbors m n k i).length ≤ k :=
  List.length_take_le k _

theorem mem_mutualLists (m : QMat) (n k i j : Nat) (hi : i < n) :
    j ∈ (mutualLists m n k).getD i [] ↔
      j ∈ nearestNeighbors m n k i ∧ i ∈ nearestNeighbors m n k j := by
  unfold mutualLists
  rw [getD_map_range _ n i hi, getD_map_range (nearestNeighbors m n k) n i hi,
    List.mem_filter]
  constructor
  · rintro ⟨hmem, hcont⟩
    refine ⟨hmem, ?_⟩
    have hjn : j < n := (nearestNeighbors_mem_sub m n k i j hmem).1
    rw [getD_map_range (nearestNeighbors m n k) n j hjn] at hcont
    simpa using hcont
  · rintro ⟨hmem, hmem2⟩
    have hjn : j < n := (nearestNeighbors_mem_sub m n k i j hmem).1
    refine ⟨hmem, ?_⟩
    rw [getD_map_range (nearestNeighbors m n k) n j hjn]
    simpa using hmem2

theorem mutualLists_row_bound (M : QMat) (n k : Nat) :
    ∀ nbrs ∈ mutualLists M n k, (∀ j ∈ nbrs, j < n) ∧ nbrs.length ≤ k := by
  intro nbrs hmem
  unfold mutualLists at hmem
  obtain ⟨i, hir, rfl⟩ := List.mem_map.mp hmem
  have hi : i < n := List.mem_range.mp hir
  rw [getD_map_range (nearestNeighbors M n k) n i hi]
  constructor
  · intro j hj
    have hj' := List.mem_of_mem_filter hj
    exact (nearestNeighbors_mem_sub M n k i j hj').1
  · exact le_trans (List.length_filter_le _ _) (nearestNeighbors_length_le M n k i)

theorem kmnn_ok_elim (dm : QMat) (k : Nat) (mnn : List (List Nat))
    (h : k_mutual_nearest_neighbors dm k = some (.ok mnn)) :
    (∃ M, mnn = mutualLists M dm.length k) ∧ 0 < k ∧ k < dm.length := by
  by_cases h1 : dm.length = 0 ∨ dm.any (fun row => row.length > dm.length) = true
  · simp only [k_mutual_nearest_neighbors] at h
    rw [if_pos h1] at h
    simp at h
  · by_cases h2 : k = 0 ∨ k ≥ dm.length
    · simp only [k_mutual_nearest_neighbors] at h
      rw [if_neg h1, if_pos h2] at h
      simp at h
    · have hk : 0 < k ∧ k < dm.length := by
        push_neg at h2
        omega
      simp only [k_mutual_nearest_neighbors] at h
      rw [if_neg h1, if_neg h2] at h
      rcases make_symmetrical_cases dm with hm | ⟨M, hm⟩ | hm
      · rw [hm] at h
        simp at h
      · rw [hm] at h
        simp [Except.map] at h
        exact ⟨⟨M, h.symm⟩, hk⟩
      · rw [hm] at h
        simp [Except.map] at h

theorem mem_mknnEdges (mnn : List (List Nat)) (dmo : Option QMat)
    (a b : Nat) (w : ℚ) :
    (a, b, w) ∈ mknnEdges mnn dmo ↔
      a < mnn.length ∧ b ∈ mnn.getD a [] ∧ w = edgeWeight dmo a b := by
  simp only [mknnEdges, List.mem_flatMap]
  constructor
  · rintro ⟨p, hp, he⟩
    obtain ⟨j, hj, hpe⟩ := List.mem_map.mp he
    obtain ⟨rfl, rfl, rfl⟩ : p.1 = a ∧ j = b ∧ edgeWeight dmo p.1 j = w := by
      have h1 := congrArg Prod.fst hpe
      have h2 := congrArg (fun q => q.2.1) hpe
      have h3 := congrArg (fun q => q.2.2) hpe
      simp at h1 h2 h3
      exact ⟨h1, h2, h3⟩
    have hg := List.mem_enum_iff_getElem?.mp hp
    obtain ⟨hlt, heq⟩ := List.getElem?_eq_some.mp hg
    refine ⟨hlt, ?_, rfl⟩
    have hd : mnn.getD p.1 [] = p.2 := by
      rw [List.getD_eq_getElem?_getD, hg]
      rfl
    rw [hd]
    exact hj
  · rintro ⟨ha, hb, rfl⟩
    refine ⟨(a, mnn.getD a []), ?_, ?_⟩
    · rw [List.mem_enum_iff_getElem?]
      rw [List.getElem?_eq_getElem ha]
      rw [List.getD_eq_getElem?_getD, List.getElem?_eq_getElem ha]
      rfl
    · exact List.mem_map.mpr ⟨b, hb, rfl⟩

/-- Claim C3 counterexample: for D' = [[0,1],[1,0]] and k = 1 the mutual
lists are [[1],[0]], and convert_to_graph inserts the unordered pair
{0, 1} twice — once from each endpoint's list — so the graph has parallel
edges and 2 edges > N·k/2 = 1, refuting simplicity. -/
theorem claim_C3_counterexample :
    k_mutual_nearest_neighbors [[0, 1], [1, 0]] 1 = some (.ok [[1], [0]]) ∧
    convert_to_graph [[1], [0]] (some [[0, 1], [1, 0]]) =
      .ok ⟨2, [(0, 1, 1), (1, 0, 1)]⟩ ∧
    ¬ List.Pairwise (fun e d : Nat × Nat × ℚ =>
        ¬ ((e.1 = d.1 ∧ e.2.1 = d.2.1) ∨ (e.1 = d.2.1 ∧ e.2.1 = d.1)))
      [(0, 1, 1), (1, 0, 1)] ∧
    ¬ ((2 : Nat) ≤ 2 * 1 / 2) := by
  decide

/-- Claim C3 amended: on the mutual lists produced by
k_mutual_nearest_neighbors, convert_to_graph succeeds and yields a graph
with no self-loops and at most N·k edges, but it is not simple: every
edge (i, j) has a parallel mate (j, i) inserted from the other
endpoint's list, so each connected unordered pair carries two parallel
edges (and the N·k/2 bound of the claim fails, as the counterexample
shows). -/
theorem claim_C3_no_self_loops_parallel (dm : QMat) (k : Nat)
    (mnn : List (List Nat))
    (h : k_mutual_nearest_neighbors dm k = some (.ok mnn)) :
    convert_to_graph mnn (some dm) = .ok ⟨mnn.length, mknnEdges mnn (some dm)⟩ ∧
    (∀ e ∈ mknnEdges mnn (some dm), e.1 ≠ e.2.1) ∧
    (mknnEdges mnn (some dm)).length ≤ mnn.length * k ∧
    (∀ e ∈ mknnEdges mnn (some dm), ∃ d ∈ mknnEdges mnn (some dm),
      d.1 = e.2.1 ∧ d.2.1 = e.1) := by
  obtain ⟨⟨M, rfl⟩, hk0, hkn⟩ := kmnn_ok_elim dm k mnn h
  have hlen : (mutualLists M dm.length k).length = dm.length := by
    simp [mutualLists]
  refine ⟨?_, ?_, ?_, ?_⟩
  · refine convert_to_graph_ok _ _ (fun nbrs hn j hj => ?_)
    rw [hlen]
    exact (mutualLists_row_bound M dm.length k nbrs hn).1 j hj
  · rintro ⟨a, b, w⟩ he
    obtain ⟨ha, hb, _⟩ := (mem_mknnEdges _ _ a b w).mp he
    rw [hlen] at ha
    have := (mem_mutualLists M dm.length k a b ha).mp hb
    exact fun hco => ((nearestNeighbors_mem_sub M dm.length k a b this.1).2
      (by simpa using hco.symm))
  · rw [mknnEdges, List.length_flatMap]
    have hb : ∀ x ∈ (mutualLists M dm.length k).enum.map
        (fun p => (p.2.map (fun j =>
          (p.1, j, edgeWeight (some dm) p.1 j))).length), x ≤ k := by
      intro x hx
      obtain ⟨p, hp, rfl⟩ := List.mem_map.mp hx
      rw [List.length_map]
      have hg := List.mem_enum_iff_getElem?.mp hp
      obtain ⟨hlt, heq⟩ := List.getElem?_eq_some.mp hg
      have hp2 : p.2 ∈ mutualLists M dm.length k := by
        rw [← heq]
        exact List.getElem_mem hlt
      exact (mutualLists_row_bound M dm.length k p.2 hp2).2
    calc ((mutualLists M dm.length k).enum.map
        (fun p => (p.2.map (fun j =>
          (p.1, j, edgeWeight (some dm) p.1 j))).length)).sum
        ≤ ((mutualLists M dm.length k).enum.map
          (fun p => (p.2.map (fun j =>
            (p.1, j, edgeWeight (some dm) p.1 j))).length)).length * k := by
          have := List.sum_le_card_nsmul ((mutualLists M dm.length k).enum.map
            (fun p => (p.2.map (fun j =>
              (p.1, j, edgeWeight (some dm) p.1 j))).length)) k hb
          simpa [smul_eq_mul] using this
    _ = (mutualLists M dm.length k).length * k := by
          rw [List.length_map, List.enum_length]
  · rintro ⟨a, b, w⟩ he
    obtain ⟨ha, hb, _⟩ := (mem_mknnEdges _ _ a b w).mp he
    rw [hlen] at ha
    obtain ⟨hba, hab⟩ := (mem_mutualLists M dm.length k a b ha).mp hb
    have hbn : b < dm.length := (nearestNeighbors_mem_sub M dm.length k a b hba).1
    refine ⟨(b, a, edgeWeight (some dm) b a), ?_, rfl, rfl⟩
    rw [mem_mknnEdges]
    refine ⟨by rw [hlen]; exact hbn, ?_, rfl⟩
    exact (mem_mutualLists M dm.length k b a hbn).mpr ⟨hab, hba⟩

/-- Claim C3 witness: the amended theorem applied at D' = [[0,1],[1,0]],
k = 1. -/
theorem claim_C3_witness :
    convert_to_graph [[1], [0]] (some ([[0, 1], [1, 0]] : QMat)) =
      .ok ⟨List.length [[1], [0]],
        mknnEdges [[1], [0]] (some [[0, 1], [1, 0]])⟩ :=
  (claim_C3_no_self_loops_parallel [[0, 1], [1, 0]] 1 [[1], [0]]
    (by decide)).1

/-! ## Claim C6 -/

/-- The (i, j) entry of a matrix, with 0 outside the carrier (all uses
are in bounds). -/
noncomputable def entryAt (m : List (List ℝ)) (i j : Nat) : ℝ :=
  (m.getD i []).getD j 0

theorem mem_upperPairs (n : Nat) (p : Nat × Nat) :
    p ∈ upperPairs n ↔ p.1 < n ∧ p.2 < n ∧ p.1 < p.2 := by
  simp only [upperPairs, List.mem_flatMap, List.mem_map, List.mem_filter,
    List.mem_range]
  constructor
  · rintro ⟨i, hi, j, ⟨hj, hij⟩, rfl⟩
    exact ⟨hi, hj, by simpa using hij⟩
  · rintro ⟨h1, h2, h3⟩
    exact ⟨p.1, h1, p.2, ⟨h2, by simpa using h3⟩, rfl⟩

theorem setMat_shape (n : Nat) (m : List (List ℝ)) (a b : Nat) (v : ℝ)
    (hlen : m.length = n) (hrows : ∀ row ∈ m, row.length = n) (ha : a < n) :
    (setMat m a b v).length = n ∧ ∀ row ∈ setMat m a b v, row.length = n := by
  constructor
  · rw [setMat, List.length_set, hlen]
  · intro row hrow
    rcases List.mem_or_eq_of_mem_set hrow with hm | rfl
    · exact hrows row hm
    · rw [List.length_set]
      have hma : a < m.length := by omega
      rw [List.getD_eq_getElem?_getD, List.getElem?_eq_getElem hma]
      exact hrows _ (List.getElem_mem hma)

theorem entry_setMat (n : Nat) (m : List (List ℝ)) (a b : Nat) (v : ℝ)
    (hlen : m.length = n) (hrows : ∀ row ∈ m, row.length = n)
    (ha : a < n) (hb : b < n) (i j : Nat) :
    entryAt (setMat m a b v) i j =
      if i = a ∧ j = b then v else entryAt m i j := by
  have hma : a < m.length := by omega
  by_cases hia : i = a
  · subst hia
    have hrowi : (setMat m i b v).getD i [] = (m.getD i []).set b v := by
      rw [setMat, List.getD_eq_getElem?_getD, List.getElem?_set_eq hma]
      rfl
    by_cases hjb : j = b
    · subst hjb
      have hblen : j < (m.getD i []).length := by
        rw [List.getD_eq_getElem?_getD, List.getElem?_eq_getElem hma]
        have := hrows _ (List.getElem_mem hma)
        simpa [this] using hb
      simp only [entryAt, hrowi, and_self, if_pos]
      rw [List.getD_eq_getElem?_getD, List.getElem?_set_eq hblen]
      rfl
    · simp only [entryAt, hrowi, hjb, and_false, if_false]
      rw [List.getD_eq_getElem?_getD, List.getElem?_set_ne (fun h => hjb h.symm),
        ← List.getD_eq_getElem?_getD]
  · have hrowi : (setMat m a b v).getD i [] = m.getD i [] := by
      rw [setMat, List.getD_eq_getElem?_getD,
        List.getElem?_set_ne (fun h => hia h.symm), ← List.getD_eq_getElem?_getD]
    simp only [entryAt, hrowi, hia, false_and, if_false]

/-- The step function of the fill loop of
euclidean_distance_of_distances. -/
noncomputable def fillStep (m : List (List ℝ)) (t : Nat × Nat × ℝ) :
    List (List ℝ) :=
  setMat (setMat m t.1 t.2.1 t.2.2) t.2.1 t.1 t.2.2

theorem fillResult_eq_foldl (n : Nat) (ds : List (Nat × Nat × ℝ)) :
    fillResult n ds =
      ds.foldl fillStep (List.replicate n (List.replicate n (0 : ℝ))) := rfl

theorem foldl_fillStep_shape (n : Nat) :
    ∀ (ds : List (Nat × Nat × ℝ)) (acc : List (List ℝ)),
      acc.length = n → (∀ row ∈ acc, row.length = n) →
      (∀ t ∈ ds, t.1 < n ∧ t.2.1 < n) →
      (ds.foldl fillStep acc).length = n ∧
        ∀ row ∈ ds.foldl fillStep acc, row.length = n
  | [], acc, h1, h2, _ => ⟨h1, h2⟩
  | t :: ds, acc, h1, h2, h3 => by
    have ht := h3 t (List.mem_cons_self t ds)
    have s1 := setMat_shape n acc t.1 t.2.1 t.2.2 h1 h2 ht.1
    have s2 := setMat_shape n _ t.2.1 t.1 t.2.2 s1.1 s1.2 ht.2
    exact foldl_fillStep_shape n ds (fillStep acc t) s2.1 s2.2
      (fun u hu => h3 u (List.mem_cons_of_mem t hu))

theorem entry_fillStep (n : Nat) (acc : List (List ℝ)) (a b : Nat) (v : ℝ)
    (h1 : acc.length = n) (h2 : ∀ row ∈ acc, row.length = n)
    (ha : a < n) (hb : b < n) (i j : Nat) :
    entryAt (fillStep acc (a, b, v)) i j =
      if (i = a ∧ j = b) ∨ (i = b ∧ j = a) then v else entryAt acc i j := by
  have s1 := setMat_shape n acc a b v h1 h2 ha
  rw [fillStep]
  rw [entry_setMat n _ b a v s1.1 s1.2 hb ha i j]
  rw [entry_setMat n acc a b v h1 h2 ha hb i j]
  by_cases hab : i = a ∧ j = b <;> by_cases hba : i = b ∧ j = a <;>
    simp [hab, hba]

theorem entry_foldl_fill (n : Nat) (dval : Nat → Nat → ℝ) :
    ∀ (ps : List (Nat × Nat)) (acc : List (List ℝ)),
      acc.length = n → (∀ row ∈ acc, row.length = n) →
      (∀ p ∈ ps, p.1 < n ∧ p.2 < n ∧ p.1 < p.2) →
      ∀ i j,
      entryAt ((ps.map (fun p => (p.1, p.2, dval p.1 p.2))).foldl fillStep acc)
          i j =
        if (i, j) ∈ ps then dval i j
        else if (j, i) ∈ ps then dval j i
        else entryAt acc i j
  | [], acc, _, _, _, i, j => by simp
  | p :: ps, acc, h1, h2, h3, i, j => by
    have hp := h3 p (List.mem_cons_self p ps)
    have s0 := setMat_shape n acc p.1 p.2 (dval p.1 p.2) h1 h2 hp.1
    have s1 := setMat_shape n _ p.2 p.1 (dval p.1 p.2) s0.1 s0.2 hp.2.1
    have ih := entry_foldl_fill n dval ps (fillStep acc (p.1, p.2, dval p.1 p.2))
      s1.1 s1.2 (fun u hu => h3 u (List.mem_cons_of_mem p hu)) i j
    rw [List.map_cons, List.foldl_cons, ih]
    rw [entry_fillStep n acc p.1 p.2 (dval p.1 p.2) h1 h2 hp.1 hp.2.1 i j]
    by_cases hij : (i, j) ∈ ps
    · have hm : (i, j) ∈ p :: ps := List.mem_cons_of_mem _ hij
      simp [hij, hm]
    · by_cases hji : (j, i) ∈ ps
      · have hne : (i, j) ≠ p := by
          rintro rfl
          have h4 := (h3 (j, i) (List.mem_cons_of_mem _ hji)).2.2
          have h5 := hp.2.2
          simp at h4 h5
          omega
        have h6 : (i, j) ∉ p :: ps := by
          rw [List.mem_cons]
          rintro (hc | hc)
          · exact hne hc
          · exact hij hc
        have h7 : (j, i) ∈ p :: ps := List.mem_cons_of_mem _ hji
        simp [hij, hji, h6, h7]
      · by_cases hpij : p = (i, j)
        · subst hpij
          have h6 : (i, j) ∈ (i, j) :: ps := List.mem_cons_self _ _
          simp [hij, hji, h6]
        · by_cases hpji : p = (j, i)
          · subst hpji
            have hne2 : i ≠ j := by
              have := hp.2.2
              simp at this
              omega
            have h6 : (i, j) ∉ (j, i) :: ps := by
              rw [List.mem_cons]
              rintro (hc | hc)
              · rw [Prod.mk.injEq] at hc
                exact hne2 hc.1
              · exact hij hc
            have h7 : (j, i) ∈ (j, i) :: ps := List.mem_cons_self _ _
            simp [hij, hji, h6, h7, hne2]
          · have hc1 : ¬ (i = p.1 ∧ j = p.2) := by
              rintro ⟨rfl, rfl⟩
              exact hpij rfl
            have hc2 : ¬ (i = p.2 ∧ j = p.1) := by
              rintro ⟨rfl, rfl⟩
              exact hpji rfl
            have h6 : (i, j) ∉ p :: ps := by
              rw [List.mem_cons]
              rintro (hc | hc)
              · exact hc1 ⟨congrArg Prod.fst hc, congrArg Prod.snd hc⟩
              · exact hij hc
            have h7 : (j, i) ∉ p :: ps := by
              rw [List.mem_cons]
              rintro (hc | hc)
              · exact hc2 ⟨congrArg Prod.snd hc, congrArg Prod.fst hc⟩
              · exact hji hc
            simp [hij, hji, h6, h7, hc1, hc2]

theorem entry_replicate_zero (n i j : Nat) :
    entryAt (List.replicate n (List.replicate n (0 : ℝ))) i j = 0 := by
  simp only [entryAt, List.getD_eq_getElem?_getD, List.getElem?_replicate]
  by_cases hi : i < n <;> by_cases hj : j < n <;> simp [hi, hj]

theorem lowerLookup_square (dm : List (List ℝ))
    (hrows : ∀ row ∈ dm, row.length = dm.length) (x t : Nat)
    (hx : x < dm.length) (ht : t < dm.length) :
    lowerLookup dm false x t = some (entryAt dm x t) := by
  simp only [lowerLookup, Bool.false_eq_true, false_and, if_false]
  rw [List.getElem?_eq_getElem hx, Option.some_bind]
  have hlen : dm[x].length = dm.length := hrows _ (List.getElem_mem hx)
  have ht' : t < dm[x].length := by omega
  rw [List.getElem?_eq_getElem ht']
  simp only [entryAt, List.getD_eq_getElem?_getD]
  rw [List.getElem?_eq_getElem hx, Option.getD_some,
    List.getElem?_eq_getElem ht', Option.getD_some]

theorem compute_distance_square (dm : List (List ℝ))
    (hrows : ∀ row ∈ dm, row.length = dm.length) (i j : Nat)
    (hi : i < dm.length) (hj : j < dm.length) :
    compute_distance dm false dm.length i j =
      some (Real.sqrt (((List.range dm.length).map
        (fun t => (entryAt dm i t - entryAt dm j t) ^ 2)).sum)) := by
  unfold compute_distance
  rw [optTraverse_eq_some _ (fun t => (entryAt dm i t - entryAt dm j t) ^ 2)]
  · rfl
  · intro t htr
    have ht := List.mem_range.mp htr
    rw [lowerLookup_square dm hrows i t hi ht,
      lowerLookup_square dm hrows j t hj ht]

theorem sq_sum_swap (dm : List (List ℝ)) (n i j : Nat) :
    ((List.range n).map (fun t => (entryAt dm i t - entryAt dm j t) ^ 2)).sum =
    ((List.range n).map (fun t => (entryAt dm j t - entryAt dm i t) ^ 2)).sum := by
  apply congrArg List.sum
  apply List.map_congr_left
  intro t _
  ring

/-- Claim C6: on a square non-negative matrix with
is_lower_triangular = false, the distance-of-distances matrix D'
satisfies D'[i,j] = sqrt(Σ_t (D[i,t] − D[j,t])²) for all i, j, and is
consequently symmetric, non-negative and zero on the diagonal. -/
theorem claim_C6_euclidean_formula (dm : List (List ℝ)) (nt cs : Option Nat)
    (hsq : ∀ row ∈ dm, row.length = dm.length)
    (hnn : ∀ row ∈ dm, ∀ x ∈ row, 0 ≤ x) :
    ∃ M, euclidean_distance_of_distances dm false nt cs = some M ∧
      M.length = dm.length ∧ (∀ row ∈ M, row.length = dm.length) ∧
      (∀ i j, i < dm.length → j < dm.length →
        entryAt M i j = Real.sqrt (((List.range dm.length).map
          (fun t => (entryAt dm i t - entryAt dm j t) ^ 2)).sum)) ∧
      (∀ i j, i < dm.length → j < dm.length → entryAt M i j = entryAt M j i) ∧
      (∀ i j, i < dm.length → j < dm.length → 0 ≤ entryAt M i j) ∧
      (∀ i, i < dm.length → entryAt M i i = 0) := by
  set n := dm.length with hn
  set dval : Nat → Nat → ℝ := fun i j =>
    Real.sqrt (((List.range n).map
      (fun t => (entryAt dm i t - entryAt dm j t) ^ 2)).sum) with hdval
  have hedd : euclidean_distance_of_distances dm false nt cs =
      some (fillResult n ((upperPairs n).map (fun p => (p.1, p.2, dval p.1 p.2)))) := by
    unfold euclidean_distance_of_distances
    rw [optTraverse_eq_some _ (fun p => (p.1, p.2, dval p.1 p.2))]
    · rfl
    · intro p hp
      obtain ⟨h1, h2, _⟩ := (mem_upperPairs n p).mp hp
      rw [compute_distance_square dm hsq p.1 p.2 h1 h2]
      rfl
  have hups : ∀ p ∈ upperPairs n, p.1 < n ∧ p.2 < n ∧ p.1 < p.2 :=
    fun p hp => (mem_upperPairs n p).mp hp
  have hzlen : (List.replicate n (List.replicate n (0 : ℝ))).length = n := by
    simp
  have hzrows : ∀ row ∈ List.replicate n (List.replicate n (0 : ℝ)),
      row.length = n := by
    intro row hrow
    rw [List.eq_of_mem_replicate hrow]
    simp
  have hentry : ∀ i j,
      entryAt (fillResult n ((upperPairs n).map (fun p => (p.1, p.2, dval p.1 p.2)))) i j =
        if (i, j) ∈ upperPairs n then dval i j
        else if (j, i) ∈ upperPairs n then dval j i
        else 0 := by
    intro i j
    rw [fillResult_eq_foldl,
      entry_foldl_fill n dval (upperPairs n) _ hzlen hzrows hups i j]
    rw [entry_replicate_zero]
  have hshape := foldl_fillStep_shape n
    ((upperPairs n).map (fun p => (p.1, p.2, dval p.1 p.2)))
    (List.replicate n (List.replicate n (0 : ℝ))) hzlen hzrows
    (by
      intro t ht
      obtain ⟨p, hp, rfl⟩ := List.mem_map.mp ht
      obtain ⟨h1, h2, _⟩ := (mem_upperPairs n p).mp hp
      exact ⟨h1, h2⟩)
  have hforms : ∀ i j, i < n → j < n →
      entryAt (fillResult n ((upperPairs n).map (fun p => (p.1, p.2, dval p.1 p.2)))) i j =
        dval i j := by
    intro i j hi hj
    rw [hentry i j]
    rcases lt_trichotomy i j with hij | rfl | hij
    · rw [if_pos ((mem_upperPairs n (i, j)).mpr ⟨hi, hj, hij⟩)]
    · have hni : ¬ (i, i) ∈ upperPairs n := by
        intro hc
        exact absurd ((mem_upperPairs n (i, i)).mp hc).2.2 (lt_irrefl i)
      rw [if_neg hni, if_neg hni]
      have hzero : ((List.range n).map
          (fun t => (entryAt dm i t - entryAt dm i t) ^ 2)).sum = 0 := by
        have : ∀ t ∈ List.range n,
            (entryAt dm i t - entryAt dm i t) ^ 2 = 0 := by
          intro t _
          simp
        rw [List.map_congr_left this]
        simp
      simp only [hdval]
      rw [hzero, Real.sqrt_zero]
    · have hni : ¬ (i, j) ∈ upperPairs n := by
        intro hc
        have := ((mem_upperPairs n (i, j)).mp hc).2.2
        omega
      rw [if_neg hni, if_pos ((mem_upperPairs n (j, i)).mpr ⟨hj, hi, hij⟩)]
      simp only [hdval]
      exact congrArg Real.sqrt (sq_sum_swap dm n j i)
  have hs1 : (fillResult n ((upperPairs n).map
      (fun p => (p.1, p.2, dval p.1 p.2)))).length = n := by
    rw [fillResult_eq_foldl]
    exact hshape.1
  have hs2 : ∀ row ∈ fillResult n ((upperPairs n).map
      (fun p => (p.1, p.2, dval p.1 p.2))), row.length = n := by
    rw [fillResult_eq_foldl]
    exact hshape.2
  refine ⟨fillResult n ((upperPairs n).map (fun p => (p.1, p.2, dval p.1 p.2))),
    hedd, hs1, hs2, hforms, ?_, ?_, ?_⟩
  · intro i j hi hj
    rw [hforms i j hi hj, hforms j i hj hi]
    simp only [hdval]
    exact congrArg Real.sqrt (sq_sum_swap dm n i j)
  · intro i j hi hj
    rw [hforms i j hi hj]
    exact Real.sqrt_nonneg _
  · intro i hi
    rw [hforms i i hi hi]
    have hzero : ((List.range n).map
        (fun t => (entryAt dm i t - entryAt dm i t) ^ 2)).sum = 0 := by
      have : ∀ t ∈ List.range n,
          (entryAt dm i t - entryAt dm i t) ^ 2 = 0 := by
        intro t _
        simp
      rw [List.map_congr_left this]
      simp
    simp only [hdval]
    rw [hzero, Real.sqrt_zero]

/-- Claim C6 witness: the theorem applied at the 2×2 matrix
[[0,1],[1,0]]. -/
theorem claim_C6_witness :
    ∃ M, euclidean_distance_of_distances [[0, 1], [1, 0]] false none none =
      some M ∧ M.length = 2 := by
  obtain ⟨M, h1, h2, _⟩ := claim_C6_euclidean_formula [[0, 1], [1, 0]] none none
    (by simp) (by intro row hrow x hx; simp at hrow; rcases hrow with rfl | rfl <;>
      simp at hx <;> rcases hx with rfl | rfl <;> norm_num)
  exact ⟨M, h1, h2⟩

/-! ## Claim C5 -/

/-- Strict lexicographic order on (index, distance) pairs by distance
first, index second: the order in which a stable sort by distance ranks
pairs whose indices are initially ascending. -/
def lexLT (a b : Nat × ℚ) : Prop :=
  a.2 < b.2 ∨ (a.2 = b.2 ∧ a.1 < b.1)

instance (a b : Nat × ℚ) : Decidable (lexLT a b) := by
  unfold lexLT
  infer_instance

theorem lexLT_irrefl (a : Nat × ℚ) : ¬ lexLT a a := by
  rintro (h | ⟨_, h⟩)
  · exact lt_irrefl _ h
  · exact lt_irrefl _ h

theorem lexLT_trans {a b c : Nat × ℚ} (h1 : lexLT a b) (h2 : lexLT b c) :
    lexLT a c := by
  rcases h1 with h1 | ⟨e1, h1⟩ <;> rcases h2 with h2 | ⟨e2, h2⟩
  · exact Or.inl (lt_trans h1 h2)
  · exact Or.inl (e2 ▸ h1)
  · exact Or.inl (e1 ▸ h2)
  · exact Or.inr ⟨e1.trans e2, lt_trans h1 h2⟩

theorem lexLT_asymm {a b : Nat × ℚ} (h1 : lexLT a b) : ¬ lexLT b a := by
  intro h2
  exact lexLT_irrefl a (lexLT_trans h1 h2)

theorem orderedInsert_pairwise_lex (a : Nat × ℚ) :
    ∀ (s : List (Nat × ℚ)), s.Pairwise lexLT → (∀ b ∈ s, a.1 < b.1) →
      (s.orderedInsert (fun x y : Nat × ℚ => x.2 ≤ y.2) a).Pairwise lexLT
  | [], _, _ => List.pairwise_singleton lexLT a
  | b :: t, hs, ha => by
    rw [List.orderedInsert]
    by_cases hab : a.2 ≤ b.2
    · rw [if_pos hab]
      have hlab : lexLT a b := by
        rcases lt_or_eq_of_le hab with h | h
        · exact Or.inl h
        · exact Or.inr ⟨h, ha b (List.mem_cons_self b t)⟩
      refine List.pairwise_cons.mpr ⟨?_, hs⟩
      intro c hc
      rcases List.mem_cons.mp hc with rfl | hct
      · exact hlab
      · exact lexLT_trans hlab (List.rel_of_pairwise_cons hs hct)
    · rw [if_neg hab]
      obtain ⟨hbt, hst⟩ := List.pairwise_cons.mp hs
      refine List.pairwise_cons.mpr ⟨?_, ?_⟩
      · intro c hc
        rcases (List.mem_orderedInsert _ ).mp hc with rfl | hct
        · exact Or.inl (lt_of_not_le hab)
        · exact hbt c hct
      · exact orderedInsert_pairwise_lex a t hst
          (fun c hct => ha c (List.mem_cons_of_mem b hct))

theorem insertionSort_pairwise_lex :
    ∀ (l : List (Nat × ℚ)), l.Pairwise (fun a b => a.1 < b.1) →
      (l.insertionSort (fun x y : Nat × ℚ => x.2 ≤ y.2)).Pairwise lexLT
  | [], _ => List.Pairwise.nil
  | a :: l, hl => by
    obtain ⟨hal, hll⟩ := List.pairwise_cons.mp hl
    rw [List.insertionSort]
    refine orderedInsert_pairwise_lex a _ (insertionSort_pairwise_lex l hll) ?_
    intro b hb
    exact hal b ((List.mem_insertionSort _).mp hb)

theorem neighborPairs_pairwise (m : QMat) (n i : Nat) :
    (neighborPairs m n i).Pairwise (fun a b => a.1 < b.1) := by
  unfold neighborPairs
  rw [List.pairwise_map]
  exact List.Pairwise.filter _ (List.sorted_lt_range n)

/-- In a strictly sorted list, an element lies among the first k entries
iff fewer than k elements precede it in the order. -/
theorem mem_take_iff_countP (x : Nat × ℚ) :
    ∀ (s : List (Nat × ℚ)), s.Pairwise lexLT → x ∈ s → ∀ k,
      (x ∈ s.take k ↔ s.countP (fun y => decide (lexLT y x)) < k)
  | [], _, hx, _ => absurd hx (List.not_mem_nil x)
  | a :: t, hpw, hx, k => by
    obtain ⟨hat, htt⟩ := List.pairwise_cons.mp hpw
    rcases List.mem_cons.mp hx with rfl | hxt
    · have hcz : (x :: t).countP (fun y => decide (lexLT y x)) = 0 := by
        rw [List.countP_cons]
        have h1 : t.countP (fun y => decide (lexLT y x)) = 0 := by
          rw [List.countP_eq_zero]
          intro y hy
          simpa using lexLT_asymm (hat y hy)
        simp [h1, lexLT_irrefl x]
      rw [hcz]
      cases k with
      | zero => simp
      | succ k =>
        rw [List.take_succ_cons]
        simp [List.mem_cons]
    · have hxa : x ≠ a := by
        rintro rfl
        exact lexLT_irrefl x (hat x hxt)
      have hax : lexLT a x := hat x hxt
      have hcs : (a :: t).countP (fun y => decide (lexLT y x)) =
          t.countP (fun y => decide (lexLT y x)) + 1 := by
        rw [List.countP_cons]
        simp [hax]
      rw [hcs]
      cases k with
      | zero => simp
      | succ k =>
        rw [List.take_succ_cons]
        rw [List.mem_cons]
        simp only [hxa, false_or]
        rw [mem_take_iff_countP x t htt hxt k]
        omega

/-- The claim's rank of column j in row i: the number of eligible
columns t (t < N, t ≠ i) that come strictly before j when the entries
D'[i,·] are ordered ascending with ties broken by ascending column
index. -/
def specRank (m : QMat) (n i j : Nat) : Nat :=
  ((List.range n).filter (fun t => t ≠ i)).countP
    (fun t => decide (matEntry m i t < matEntry m i j ∨
      (matEntry m i t = matEntry m i j ∧ t < j)))

/-- The claim's characterization of membership in NN_k(i): j is an
eligible column whose rank in row i is below k. -/
def specNN (m : QMat) (n k i j : Nat) : Prop :=
  j < n ∧ j ≠ i ∧ specRank m n i j < k

theorem countP_neighborPairs (m : QMat) (n i j : Nat) :
    (neighborPairs m n i).countP
      (fun y => decide (lexLT y (j, matEntry m i j))) = specRank m n i j := by
  unfold neighborPairs specRank
  rw [List.countP_map]
  apply List.countP_congr
  intro t _
  simp only [Function.comp]
  constructor
  · intro h
    rcases of_decide_eq_true h with h' | ⟨e, h'⟩
    · exact decide_eq_true (Or.inl h')
    · exact decide_eq_true (Or.inr ⟨e, h'⟩)
  · intro h
    rcases of_decide_eq_true h with h' | ⟨e, h'⟩
    · exact decide_eq_true (Or.inl h')
    · exact decide_eq_true (Or.inr ⟨e, h'⟩)

/-- The per-row nearest-neighbour list contains j exactly when j is an
eligible column of rank below k: the stable sort orders the pairs by
lexLT, so the first k indices are the k lex-smallest. -/
theorem mem_nearestNeighbors (m : QMat) (n k i j : Nat) :
    j ∈ nearestNeighbors m n k i ↔ specNN m n k i j := by
  have hpw : ((neighborPairs m n i).insertionSort
      (fun x y : Nat × ℚ => x.2 ≤ y.2)).Pairwise lexLT :=
    insertionSort_pairwise_lex _ (neighborPairs_pairwise m n i)
  have hperm : List.Perm ((neighborPairs m n i).insertionSort
      (fun x y : Nat × ℚ => x.2 ≤ y.2)) (neighborPairs m n i) :=
    List.perm_insertionSort _ _
  unfold nearestNeighbors
  constructor
  · intro hj
    rw [← List.map_take] at hj
    obtain ⟨x, hxk, rfl⟩ := List.mem_map.mp hj
    have hxs := List.mem_of_mem_take hxk
    have hxp := hperm.subset hxs
    obtain ⟨h1, h2, h3⟩ := (mem_neighborPairs m n i x).mp hxp
    refine ⟨h1, h2, ?_⟩
    have hcount := (mem_take_iff_countP x _ hpw hxs k).mp hxk
    rw [hperm.countP_eq] at hcount
    rw [h3] at hcount
    rw [countP_neighborPairs m n i x.1] at hcount
    exact hcount
  · rintro ⟨h1, h2, h3⟩
    have hxp : (j, matEntry m i j) ∈ neighborPairs m n i :=
      (mem_neighborPairs m n i (j, matEntry m i j)).mpr ⟨h1, h2, rfl⟩
    have hxs : (j, matEntry m i j) ∈ (neighborPairs m n i).insertionSort
        (fun x y : Nat × ℚ => x.2 ≤ y.2) := hperm.mem_iff.mpr hxp
    have hcount : ((neighborPairs m n i).insertionSort
        (fun x y : Nat × ℚ => x.2 ≤ y.2)).countP
        (fun y => decide (lexLT y (j, matEntry m i j))) < k := by
      rw [hperm.countP_eq, countP_neighborPairs m n i j]
      exact h3
    have hmem := (mem_take_iff_countP _ _ hpw hxs k).mpr hcount
    rw [← List.map_take]
    exact List.mem_map.mpr ⟨(j, matEntry m i j), hmem, rfl⟩

/-- Claim C5: for every valid non-empty square matrix and 0 < k < N,
k_mutual_nearest_neighbors succeeds and row i of its result contains j
iff j is among the k smallest entries of row i (self excluded, ties by
ascending column index) and, symmetrically, i is among the k smallest
entries of row j. -/
theorem claim_C5_mutual_characterization (dm : QMat) (k : Nat)
    (hne : dm ≠ []) (hsq : ∀ row ∈ dm, row.length = dm.length)
    (hk0 : 0 < k) (hkn : k < dm.length) :
    k_mutual_nearest_neighbors dm k =
      some (.ok (mutualLists dm dm.length k)) ∧
    ∀ i j, i < dm.length →
      (j ∈ (mutualLists dm dm.length k).getD i [] ↔
        specNN dm dm.length k i j ∧ specNN dm dm.length k j i) := by
  constructor
  · have hn : ¬ (dm.length = 0 ∨
        dm.any (fun row => row.length > dm.length) = true) := by
      rintro (h0 | hany)
      · exact hne (List.length_eq_zero.mp h0)
      · rw [List.any_eq_true] at hany
        obtain ⟨row, hrow, hgt⟩ := hany
        have := hsq row hrow
        simp [this] at hgt
    have hk : ¬ (k = 0 ∨ k ≥ dm.length) := by
      rintro (h0 | hge)
      · omega
      · omega
    have hms : make_symmetrical dm = some (.ok dm) := by
      have hemp : ¬ dm.isEmpty = true := by
        simpa using hne
      have hall : dm.all (fun row => row.length = dm.length) = true := by
        rw [List.all_eq_true]
        intro row hrow
        simpa using hsq row hrow
      simp [make_symmetrical, hemp, hall]
    simp only [k_mutual_nearest_neighbors]
    rw [if_neg hn, if_neg hk, hms]
    rfl
  · intro i j hi
    rw [mem_mutualLists dm dm.length k i j hi,
      mem_nearestNeighbors dm dm.length k i j,
      mem_nearestNeighbors dm dm.length k j i]

/-- Claim C5 witness: the theorem applied at the 3×3 matrix of the
spec's first scenario with k = 1. -/
theorem claim_C5_witness :
    k_mutual_nearest_neighbors [[0, 1, 2], [1, 0, 3], [2, 3, 0]] 1 =
      some (.ok (mutualLists [[0, 1, 2], [1, 0, 3], [2, 3, 0]]
        (List.length [[0, 1, 2], [1, 0, 3], [2, 3, 0]]) 1)) :=
  (claim_C5_mutual_characterization [[0, 1, 2], [1, 0, 3], [2, 3, 0]] 1
    (by decide) (by decide) (by decide) (by decide)).1

/-- Claim C9 witness: the theorem applied at the two-entry map with
values 0 and 2. -/
theorem claim_C9_witness :
    standardize_centrality (standardize_centrality [(0, 0), (1, 2)]) =
      standardize_centrality [(0, 0), (1, 2)] ∧
    (∀ q ∈ standardize_centrality [(0, 0), (1, 2)], 0 ≤ q.2 ∧ q.2 ≤ 1) :=
  ⟨(claim_C9_standardize_idempotent [(0, 0), (1, 2)]).1,
   ((claim_C9_standardize_idempotent [(0, 0), (1, 2)]).2 (0, 0) [(1, 2)]
     rfl).1 (by decide)⟩

end Netviewr
